/-
Verification of the TZURONI cross-site market matching core
(`src/matching.py`, `src/types.py`, `src/main.py`) against its
natural-language specification.

Strings are embedded as Lean `String` / `List Char`; Python floats are
embedded as exact rationals (ℚ).  The external similarity primitive
`rapidfuzz.fuzz.token_set_ratio` is not part of the repository's sources,
so it is modelled from the specification (§4.2, §7); everything else is
translated directly from the Python sources.
-/
import Mathlib

namespace Tzuroni

/-! ### Python string primitives used by `matching.py` -/

/-- Embedding of Python `str.lower()` (ASCII-style case folding, per spec §4.1). -/
def pyLower (s : List Char) : List Char := s.map Char.toLower

/-- Embedding of Python `str.strip()`: drop leading and trailing whitespace. -/
def pyStrip (s : List Char) : List Char :=
  ((s.dropWhile Char.isWhitespace).reverse.dropWhile Char.isWhitespace).reverse

/-- The punctuation characters replaced by `normalize_title`
(`["?", "!", ",", ".", ":", ";", "(", ")", "[", "]"]` in the source). -/
def punctChars : List Char := ['?', '!', ',', '.', ':', ';', '(', ')', '[', ']']

/-- Embedding of Python `t.replace(ch, " ")` for a single character `ch`. -/
def replaceChar (c : Char) (s : List Char) : List Char :=
  s.map (fun x => if x = c then ' ' else x)

/-- The `for ch in [...]: t = t.replace(ch, " ")` loop of `normalize_title`. -/
def replacePunct (s : List Char) : List Char :=
  punctChars.foldl (fun t c => replaceChar c t) s

/-- Embedding of the Python test `"  " in t`: the string contains two adjacent spaces. -/
def hasDoubleSpace : List Char → Bool
  | [] => false
  | [_] => false
  | c1 :: c2 :: rest =>
    if c1 = ' ' ∧ c2 = ' ' then true else hasDoubleSpace (c2 :: rest)

/-- Embedding of one Python `t.replace("  ", " ")` call (left-to-right,
non-overlapping replacement of space pairs by single spaces). -/
def replaceDoubleSpace : List Char → List Char
  | [] => []
  | [c] => [c]
  | c1 :: c2 :: rest =>
    if c1 = ' ' ∧ c2 = ' ' then ' ' :: replaceDoubleSpace rest
    else c1 :: replaceDoubleSpace (c2 :: rest)

/-- The `while "  " in t: t = t.replace("  ", " ")` loop of `normalize_title`,
run with an explicit iteration budget.  Each iteration of the Python loop
strictly shrinks the string, so a budget of `s.length` is always enough
(`collapseSpaces_eq_squeezeSpaces` below proves the loop's result exactly). -/
def collapseFuel : Nat → List Char → List Char
  | 0, s => s
  | fuel + 1, s =>
    if hasDoubleSpace s then collapseFuel fuel (replaceDoubleSpace s) else s

/-- The fixpoint of the double-space replacement loop in `normalize_title`. -/
def collapseSpaces (s : List Char) : List Char := collapseFuel s.length s

/-- Embedding of `normalize_title` from `src/matching.py`:
lower-case, strip, replace punctuation by spaces, collapse double spaces. -/
def normalize_title (title : String) : String :=
  ⟨collapseSpaces (replacePunct (pyStrip (pyLower title.data)))⟩

/-- The spec's description of the whitespace step (§4.1): collapse any run of
two or more spaces down to exactly one space.  Used as the reference pipeline
in claim C8. -/
def squeezeSpaces : List Char → List Char
  | [] => []
  | [c] => [c]
  | c1 :: c2 :: rest =>
    if c1 = ' ' ∧ c2 = ' ' then squeezeSpaces (c2 :: rest)
    else c1 :: squeezeSpaces (c2 :: rest)

/-- The reference normalization pipeline as worded by the spec (§4.1):
identical steps, with the whitespace collapse expressed as run-collapsing. -/
def specNormalize (title : String) : String :=
  ⟨squeezeSpaces (replacePunct (pyStrip (pyLower title.data)))⟩

/-! ### The similarity scorer

`matching.py` computes `fuzz.token_set_ratio(normalize_title a,
normalize_title b) / 100.0` with `rapidfuzz`'s `token_set_ratio`.  That
function is an external dependency, not part of this repository, so it is
modelled from the specification (§4.2): whitespace tokens, reduced to a
sorted set; the score compares the intersection's sorted reconstruction
against each original token-set's sorted reconstruction with a classic
edit-distance (indel) ratio, returning the maximum, scaled 0–100. -/

/-- Accumulator pass for Python `str.split()`: split on whitespace runs,
dropping empty pieces. -/
def splitTokensAux : List Char → List Char → List (List Char)
  | [], acc => if acc = [] then [] else [acc.reverse]
  | c :: rest, acc =>
    if c.isWhitespace then
      if acc = [] then splitTokensAux rest []
      else acc.reverse :: splitTokensAux rest []
    else splitTokensAux rest (c :: acc)

/-- Embedding of Python `str.split()` (no separator argument). -/
def splitTokens (s : List Char) : List (List Char) := splitTokensAux s []

/-- Embedding of Python `sorted(set(s.split()))`: the distinct whitespace
tokens of `s` in ascending lexicographic order. -/
def tokenSet (s : List Char) : List (List Char) :=
  List.insertionSort (· ≤ ·) (splitTokens s).dedup

/-- Embedding of Python `" ".join(tokens)`. -/
def joinSpace : List (List Char) → List Char
  | [] => []
  | [t] => t
  | t :: rest => t ++ ' ' :: joinSpace rest

/-- Length of a longest common subsequence, computed with an explicit fuel
(one unit per recursion step; `a.length + b.length` always suffices).
This is the classic-edit-distance core of the spec's ratio (§4.2): the
indel distance of `a` and `b` is `a.length + b.length - 2 * lcs a b`. -/
def lcsFuel : Nat → List Char → List Char → Nat
  | 0, _, _ => 0
  | _ + 1, [], _ => 0
  | _ + 1, _ :: _, [] => 0
  | fuel + 1, a :: as, b :: bs =>
    if a = b then lcsFuel fuel as bs + 1
    else max (lcsFuel fuel (a :: as) bs) (lcsFuel fuel as (b :: bs))

/-- Longest-common-subsequence length of two character lists. -/
def lcsLen (a b : List Char) : Nat := lcsFuel (a.length + b.length) a b

/-- Modelled from the spec: the "classic edit-distance-based ratio" of §4.2,
the indel-normalized similarity `(|a| + |b| - dist) / (|a| + |b|) =
2·lcs(a,b) / (|a| + |b|)`, as a rational in `[0,1]` (1 when both empty). -/
def indelSim (a b : List Char) : ℚ :=
  if a.length + b.length = 0 then 1
  else (2 * lcsLen a b : ℚ) / (a.length + b.length)

/-- Modelled from the spec: `rapidfuzz.fuzz.token_set_ratio`, the external
similarity primitive missing from the repository's sources.  Per §4.2 the
score is the maximum of the edit-distance ratios between the sorted
reconstruction of the token-set intersection and each original token-set's
sorted reconstruction, scaled to 0–100; per §4.2/§7 a string without tokens
(empty or whitespace-only after normalization) scores 0 against anything.
The sorted intersection of the two token sets is `sectTokens` below. -/
def sectTokens (a b : List Char) : List (List Char) :=
  (tokenSet a).filter (fun t => decide (t ∈ tokenSet b))

/-- Modelled from the spec: the 0–100 token-set score of §4.2 (see
`sectTokens` above for provenance). -/
def tokenSetScore (a b : List Char) : ℚ :=
  if tokenSet a = [] ∨ tokenSet b = [] then 0
  else
    100 * max (indelSim (joinSpace (sectTokens a b)) (joinSpace (tokenSet a)))
              (indelSim (joinSpace (sectTokens a b)) (joinSpace (tokenSet b)))

/-- Embedding of `similarity` from `src/matching.py`:
`fuzz.token_set_ratio(normalize_title(a), normalize_title(b)) / 100.0`. -/
def similarity (a b : String) : ℚ :=
  tokenSetScore (normalize_title a).data (normalize_title b).data / 100

/-! ### Data model (`src/types.py`) -/

/-- Embedding of the `SiteMarket` pydantic model: one listing from one site.
Python's optional float `price` becomes `Option ℚ`; the opaque `additional`
metadata bag, never interpreted by the core, is carried as a key-value list. -/
structure SiteMarket where
  site : String
  id : String
  title : String
  price : Option ℚ
  url : Option String
  additional : List (String × String)
deriving DecidableEq

/-- Embedding of the `UnifiedProduct` pydantic model. -/
structure UnifiedProduct where
  unified_title : String
  members : List SiteMarket
  confidence_scores : List ℚ
deriving DecidableEq

/-- Embedding of the `average_confidence` property of `UnifiedProduct`
(0.0 when the score list is empty, else the arithmetic mean). -/
def UnifiedProduct.average_confidence (up : UnifiedProduct) : ℚ :=
  if up.confidence_scores = [] then 0
  else up.confidence_scores.sum / up.confidence_scores.length

/-- A placeholder record used only as the default of `List.getD` in theorem
statements (always at indices proven in range, so never actually selected). -/
def dummyMarket : SiteMarket := ⟨"", "", "", none, none, []⟩

/-! ### Clustering engine (`cluster_markets` in `src/matching.py`) -/

/-- A cluster during clustering: ordered `(record, membership_score)` pairs. -/
abbrev Cluster := List (SiteMarket × ℚ)

/-- The cluster's comparison anchor: its first member's title
(`cluster[0][0].title` in the source; `""` on the unreachable empty cluster). -/
def centroidTitle : Cluster → String
  | [] => ""
  | (m, _) :: _ => m.title

/-- The inner `for cluster in clusters` loop of `cluster_markets`: try the
clusters in creation order, append `(m, score)` to the first one whose
centroid scores at least `threshold`, and report `none` when no cluster
qualifies (`placed` stays false in the source). -/
def tryPlace (threshold : ℚ) (m : SiteMarket) : List Cluster → Option (List Cluster)
  | [] => none
  | c :: cs =>
    if threshold ≤ similarity m.title (centroidTitle c) then
      some ((c ++ [(m, similarity m.title (centroidTitle c))]) :: cs)
    else
      match tryPlace threshold m cs with
      | some cs' => some (c :: cs')
      | none => none

/-- One iteration of the outer `for m in markets` loop: place the record in
the first matching cluster, else start a new singleton cluster with score 1.0. -/
def insertMarket (threshold : ℚ) (cs : List Cluster) (m : SiteMarket) : List Cluster :=
  match tryPlace threshold m cs with
  | some cs' => cs'
  | none => cs ++ [[(m, 1)]]

/-- The clustering pass of `cluster_markets`: fold the records in arrival
order over an initially empty cluster list. -/
def buildClusters (threshold : ℚ) (markets : List SiteMarket) : List Cluster :=
  markets.foldl (insertMarket threshold) []

/-- Embedding of Python `max(titles, key=len)`: the first string of maximal
length (Python's `max` keeps the current candidate on ties).  `""` on the
unreachable empty list (Python would raise there). -/
def maxByLen (l : List String) : String :=
  match l with
  | [] => ""
  | t :: ts => ts.foldl (fun best x => if best.length < x.length then x else best) t

/-- The unified-product builder: representative title, members and scores
copied from the cluster in formation order. -/
def toUnified (c : Cluster) : UnifiedProduct :=
  { unified_title := maxByLen (c.map (fun p => p.1.title))
    members := c.map (fun p => p.1)
    confidence_scores := c.map (fun p => p.2) }

/-- Embedding of `cluster_markets` from `src/matching.py` (the Python
default for `threshold` is `0.78`). -/
def cluster_markets (markets : List SiteMarket) (threshold : ℚ) : List UnifiedProduct :=
  (buildClusters threshold markets).map toUnified

/-- The spec's pseudocode for one record (§4.3), written with
`takeWhile`/`dropWhile`: all clusters strictly before the first qualifying
one are kept, the first qualifying cluster receives `(record, score)`, and
when none qualifies a new singleton cluster `(record, 1.0)` is appended. -/
def specInsert (threshold : ℚ) (cs : List Cluster) (m : SiteMarket) : List Cluster :=
  let ok : Cluster → Bool := fun c => decide (threshold ≤ similarity m.title (centroidTitle c))
  match cs.dropWhile (fun c => ! ok c) with
  | [] => cs ++ [[(m, 1)]]
  | c :: rest =>
    cs.takeWhile (fun c => ! ok c) ++ (c ++ [(m, similarity m.title (centroidTitle c))]) :: rest

/-- The spec's clustering algorithm (§4.3), single left-to-right pass over
the records, followed by the §4.4 builder. -/
def specCluster (markets : List SiteMarket) (threshold : ℚ) : List UnifiedProduct :=
  (markets.foldl (specInsert threshold) []).map toUnified

/-! ### Result serializer (`export_csv` in `src/main.py`) -/

/-- Round-half-to-even of a rational to an integer (the rounding of Python's
fixed-precision float formatting). -/
def roundHalfEven (x : ℚ) : ℤ :=
  let fl := ⌊x⌋
  if x - fl < 1/2 then fl
  else if (1 : ℚ)/2 < x - fl then fl + 1
  else if fl % 2 = 0 then fl else fl + 1

/-- Left-pad a decimal digit string with zeros to the target width. -/
def padZeros (width : Nat) (s : String) : String :=
  ⟨List.replicate (width - s.length) '0' ++ s.data⟩

/-- Fixed-point decimal rendering of a nonnegative rational with `prec`
digits after the point. -/
def fmtFixedPos (prec : Nat) (q : ℚ) : String :=
  let n := (roundHalfEven (q * (10 : ℚ) ^ prec)).toNat
  let base := (10 : ℕ) ^ prec
  toString (n / base) ++ "." ++ padZeros prec (toString (n % base))

/-- Embedding of Python's fixed-precision format `f"{q:.precf}"` on the
rationals of this model. -/
def fmtFixed (prec : Nat) (q : ℚ) : String :=
  if q < 0 then "-" ++ fmtFixedPos prec (-q) else fmtFixedPos prec q

/-- The price field of a CSV row: empty when the price is absent, else the
price with fixed 4-decimal precision (`"" if member.price is None else
f"{member.price:.4f}"` in the source). -/
def formatPrice : Option ℚ → String
  | none => ""
  | some p => fmtFixed 4 p

/-- One data row of `export_csv`:
`(unified_title, site, site_product_id, price, confidence)`. -/
def csvRow (title : String) (m : SiteMarket) (conf : ℚ) : List String :=
  [title, m.site, m.id, formatPrice m.price, fmtFixed 3 conf]

/-- The header row written by `export_csv`. -/
def csvHeader : List String :=
  ["unified_title", "site", "site_product_id", "price", "confidence"]

/-- The data rows of `export_csv`: for each product, one row per pair
produced by `zip(up.members, up.confidence_scores)`, in product order then
member order. -/
def exportRows (unified : List UnifiedProduct) : List (List String) :=
  unified.flatMap fun up =>
    (up.members.zip up.confidence_scores).map fun p => csvRow up.unified_title p.1 p.2

/-- Embedding of `export_csv` from `src/main.py` as the list of rows it
writes: the header followed by the data rows. -/
def export_csv (unified : List UnifiedProduct) : List (List String) :=
  csvHeader :: exportRows unified

/-! ### Auxiliary definitions for the statements below -/

/-- The invariant of every cluster the engine ever forms: it starts with its
centroid member carrying score 1.0, and each later member carries exactly
its similarity to the centroid's title, which is at least the threshold. -/
def GoodCluster (t : ℚ) (c : Cluster) : Prop :=
  ∃ m0 rest, c = (m0, (1 : ℚ)) :: rest ∧
    ∀ p ∈ rest, p.2 = similarity p.1.title m0.title ∧ t ≤ p.2

/-- The raw member titles of a product, in member order (used to state the
representative-title property of §4.4). -/
def memberTitles (up : UnifiedProduct) : List String :=
  up.members.map (fun m => m.title)

/-- Concrete records used in witnesses and counterexamples. -/
def rA1 : SiteMarket := ⟨"s1", "1", "a b", none, none, []⟩

def rA2 : SiteMarket := ⟨"s2", "2", "a b", some (1/4), none, []⟩

def rXY : SiteMarket := ⟨"s1", "1", "x y", none, none, []⟩

def rXYZW : SiteMarket := ⟨"s2", "2", "x y z w", none, none, []⟩

def rZW : SiteMarket := ⟨"s3", "3", "z w", none, none, []⟩

/-!
## Lemmas

The rational operations of the standard library are `@[irreducible]`; making
them semireducible again lets `decide` evaluate the model on the concrete
inputs of the witnesses and counterexamples below.
-/

attribute [local semireducible] Rat.add Rat.mul Rat.inv Rat.sub

/-! ### Longest common subsequence and the indel ratio -/

theorem lcsFuel_le_left (f : Nat) : ∀ a b : List Char, lcsFuel f a b ≤ a.length := by
  induction f with
  | zero => intro a b; simp [lcsFuel]
  | succ f ih =>
    intro a b
    cases a with
    | nil => simp [lcsFuel]
    | cons x xs =>
      cases b with
      | nil => simp [lcsFuel]
      | cons y ys =>
        simp only [lcsFuel, List.length_cons]
        split
        · exact Nat.succ_le_succ (ih xs ys)
        · exact max_le (ih (x :: xs) ys) (Nat.le_succ_of_le (ih xs (y :: ys)))

theorem lcsFuel_le_right (f : Nat) : ∀ a b : List Char, lcsFuel f a b ≤ b.length := by
  induction f with
  | zero => intro a b; simp [lcsFuel]
  | succ f ih =>
    intro a b
    cases a with
    | nil => simp [lcsFuel]
    | cons x xs =>
      cases b with
      | nil => simp [lcsFuel]
      | cons y ys =>
        simp only [lcsFuel, List.length_cons]
        split
        · exact Nat.succ_le_succ (ih xs ys)
        · exact max_le (Nat.le_succ_of_le (ih (x :: xs) ys)) (ih xs (y :: ys))

theorem lcsFuel_comm (f : Nat) : ∀ a b : List Char, lcsFuel f a b = lcsFuel f b a := by
  induction f with
  | zero => intro a b; simp [lcsFuel]
  | succ f ih =>
    intro a b
    cases a with
    | nil => cases b <;> simp [lcsFuel]
    | cons x xs =>
      cases b with
      | nil => simp [lcsFuel]
      | cons y ys =>
        simp only [lcsFuel]
        by_cases h : x = y
        · subst h
          rw [if_pos rfl, if_pos rfl, ih xs ys]
        · have h' : ¬ y = x := fun hh => h hh.symm
          rw [if_neg h, if_neg h', ih (x :: xs) ys, ih xs (y :: ys), Nat.max_comm]

theorem lcsFuel_self (f : Nat) : ∀ a : List Char, a.length ≤ f → lcsFuel f a a = a.length := by
  induction f with
  | zero =>
    intro a ha
    rw [List.length_eq_zero.mp (Nat.le_zero.mp ha)]
    simp [lcsFuel]
  | succ f ih =>
    intro a ha
    cases a with
    | nil => simp [lcsFuel]
    | cons x xs =>
      simp only [lcsFuel, if_pos rfl, List.length_cons]
      exact congrArg (· + 1) (ih xs (Nat.le_of_succ_le_succ ha))

theorem lcsLen_le_left (a b : List Char) : lcsLen a b ≤ a.length :=
  lcsFuel_le_left _ a b

theorem lcsLen_le_right (a b : List Char) : lcsLen a b ≤ b.length :=
  lcsFuel_le_right _ a b

theorem lcsLen_comm (a b : List Char) : lcsLen a b = lcsLen b a := by
  unfold lcsLen
  rw [lcsFuel_comm, Nat.add_comm]

theorem lcsLen_self (a : List Char) : lcsLen a a = a.length :=
  lcsFuel_self _ a (Nat.le_add_right _ _)

theorem indelSim_nonneg (a b : List Char) : 0 ≤ indelSim a b := by
  unfold indelSim
  split
  · norm_num
  · exact div_nonneg (by positivity) (by positivity)

theorem indelSim_le_one (a b : List Char) : indelSim a b ≤ 1 := by
  unfold indelSim
  split
  · norm_num
  · rename_i h
    have hpos : (0 : ℚ) < (a.length : ℚ) + (b.length : ℚ) := by
      exact_mod_cast Nat.pos_of_ne_zero h
    rw [div_le_one hpos]
    have h1 : 2 * lcsLen a b ≤ a.length + b.length :=
      two_mul (lcsLen a b) ▸ Nat.add_le_add (lcsLen_le_left a b) (lcsLen_le_right a b)
    exact_mod_cast h1

theorem indelSim_comm (a b : List Char) : indelSim a b = indelSim b a := by
  unfold indelSim
  rw [lcsLen_comm, Nat.add_comm a.length b.length, add_comm (a.length : ℚ) (b.length : ℚ)]

theorem indelSim_self (a : List Char) : indelSim a a = 1 := by
  unfold indelSim
  split
  · rfl
  · rename_i h
    have hn : a.length ≠ 0 := by omega
    rw [lcsLen_self, show ((a.length : ℚ) + a.length) = 2 * (a.length : ℚ) by ring]
    exact div_self (mul_ne_zero two_ne_zero (Nat.cast_ne_zero.mpr hn))

/-! ### Token sets and the similarity scorer -/

theorem tokenSet_sorted (s : List Char) : List.Sorted (· ≤ ·) (tokenSet s) :=
  List.sorted_insertionSort _ _

theorem tokenSet_nodup (s : List Char) : (tokenSet s).Nodup :=
  ((List.perm_insertionSort _ _).nodup_iff).mpr (List.nodup_dedup _)

/-- Two sorted duplicate-free lists intersect symmetrically: filtering the
first by membership in the second yields the same list as the converse. -/
theorem filter_mem_symm {la lb : List (List Char)}
    (ha : List.Sorted (· ≤ ·) la) (hb : List.Sorted (· ≤ ·) lb)
    (na : la.Nodup) (nb : lb.Nodup) :
    la.filter (fun t => decide (t ∈ lb)) = lb.filter (fun t => decide (t ∈ la)) := by
  haveI : IsAntisymm (List Char) (· ≤ ·) := ⟨fun _ _ hab hba => le_antisymm hab hba⟩
  refine List.eq_of_perm_of_sorted ?_ (ha.filter _) (hb.filter _)
  refine (List.perm_ext_iff_of_nodup (na.filter _) (nb.filter _)).mpr fun x => ?_
  simp only [List.mem_filter, decide_eq_true_eq]
  exact and_comm

theorem sectTokens_symm (a b : List Char) : sectTokens a b = sectTokens b a :=
  filter_mem_symm (tokenSet_sorted a) (tokenSet_sorted b) (tokenSet_nodup a) (tokenSet_nodup b)

theorem tokenSetScore_nonneg (a b : List Char) : 0 ≤ tokenSetScore a b := by
  unfold tokenSetScore
  split
  · norm_num
  · have := indelSim_nonneg (joinSpace (sectTokens a b)) (joinSpace (tokenSet a))
    have := le_max_left (indelSim (joinSpace (sectTokens a b)) (joinSpace (tokenSet a)))
      (indelSim (joinSpace (sectTokens a b)) (joinSpace (tokenSet b)))
    positivity

theorem tokenSetScore_le_hundred (a b : List Char) : tokenSetScore a b ≤ 100 := by
  unfold tokenSetScore
  split
  · norm_num
  · have h1 := indelSim_le_one (joinSpace (sectTokens a b)) (joinSpace (tokenSet a))
    have h2 := indelSim_le_one (joinSpace (sectTokens a b)) (joinSpace (tokenSet b))
    have : max (indelSim (joinSpace (sectTokens a b)) (joinSpace (tokenSet a)))
        (indelSim (joinSpace (sectTokens a b)) (joinSpace (tokenSet b))) ≤ 1 := max_le h1 h2
    linarith

theorem tokenSetScore_comm (a b : List Char) : tokenSetScore a b = tokenSetScore b a := by
  unfold tokenSetScore
  rw [sectTokens_symm a b]
  by_cases hg : tokenSet a = [] ∨ tokenSet b = []
  · rw [if_pos hg, if_pos (Or.symm hg)]
  · rw [if_neg hg, if_neg (fun hc => hg (Or.symm hc)), max_comm]

theorem similarity_nonneg (a b : String) : 0 ≤ similarity a b :=
  div_nonneg (tokenSetScore_nonneg _ _) (by norm_num)

theorem similarity_le_one (a b : String) : similarity a b ≤ 1 := by
  unfold similarity
  rw [div_le_one (by norm_num)]
  exact tokenSetScore_le_hundred _ _

theorem similarity_comm (a b : String) : similarity a b = similarity b a := by
  unfold similarity
  rw [tokenSetScore_comm]

/-- Reflexivity of the scorer holds exactly on inputs whose normalization
still contains at least one token. -/
theorem similarity_self {a : String} (h : tokenSet (normalize_title a).data ≠ []) :
    similarity a a = 1 := by
  unfold similarity tokenSetScore sectTokens
  rw [if_neg (by simpa using h)]
  rw [List.filter_eq_self.mpr (fun x hx => by simpa using hx)]
  rw [indelSim_self, max_self]
  norm_num

/-! ### Invariants of the clustering pass -/

theorem good_singleton (t : ℚ) (m : SiteMarket) : GoodCluster t [(m, 1)] :=
  ⟨m, [], rfl, by simp⟩

theorem good_append {t : ℚ} {c : Cluster} (hc : GoodCluster t c) {m : SiteMarket} {s : ℚ}
    (hs : s = similarity m.title (centroidTitle c)) (ht : t ≤ s) :
    GoodCluster t (c ++ [(m, s)]) := by
  obtain ⟨m0, rest, rfl, hrest⟩ := hc
  refine ⟨m0, rest ++ [(m, s)], rfl, fun p hp => ?_⟩
  rcases List.mem_append.mp hp with h | h
  · exact hrest p h
  · have hp' : p = (m, s) := by simpa using h
    subst hp'
    exact ⟨hs, ht⟩

theorem tryPlace_good {t : ℚ} {m : SiteMarket} :
    ∀ {cs cs' : List Cluster}, tryPlace t m cs = some cs' →
      (∀ c ∈ cs, GoodCluster t c) → ∀ c ∈ cs', GoodCluster t c := by
  intro cs
  induction cs with
  | nil => intro cs' h; simp [tryPlace] at h
  | cons c cs ih =>
    intro cs' h hg
    rw [tryPlace] at h
    split at h
    · rename_i hcond
      injection h with h
      subst h
      intro c' hc'
      rcases List.mem_cons.mp hc' with rfl | hmem
      · exact good_append (hg c (List.mem_cons_self c cs)) rfl hcond
      · exact hg c' (List.mem_cons_of_mem c hmem)
    · rename_i hcond
      cases htp : tryPlace t m cs with
      | none => rw [htp] at h; exact absurd h (by simp)
      | some cs'' =>
        rw [htp] at h
        injection h with h
        subst h
        intro c' hc'
        rcases List.mem_cons.mp hc' with rfl | hmem
        · exact hg _ (List.mem_cons_self _ _)
        · exact ih htp (fun d hd => hg d (List.mem_cons_of_mem _ hd)) c' hmem

theorem insertMarket_good {t : ℚ} {m : SiteMarket} {cs : List Cluster}
    (hg : ∀ c ∈ cs, GoodCluster t c) : ∀ c ∈ insertMarket t cs m, GoodCluster t c := by
  intro c hc
  unfold insertMarket at hc
  cases htp : tryPlace t m cs with
  | none =>
    rw [htp] at hc
    rcases List.mem_append.mp hc with h | h
    · exact hg c h
    · have : c = [(m, 1)] := by simpa using h
      subst this
      exact good_singleton t m
  | some cs' =>
    rw [htp] at hc
    exact tryPlace_good htp hg c hc

theorem buildClusters_good (t : ℚ) (ms : List SiteMarket) :
    ∀ c ∈ buildClusters t ms, GoodCluster t c := by
  have H : ∀ (l : List SiteMarket) (acc : List Cluster), (∀ c ∈ acc, GoodCluster t c) →
      ∀ c ∈ l.foldl (insertMarket t) acc, GoodCluster t c := by
    intro l
    induction l with
    | nil => intro acc hacc; simpa using hacc
    | cons m l ih =>
      intro acc hacc
      rw [List.foldl_cons]
      exact ih _ (insertMarket_good hacc)
  exact H ms [] (by simp)

theorem mem_cluster_markets {ms : List SiteMarket} {t : ℚ} {up : UnifiedProduct}
    (h : up ∈ cluster_markets ms t) : ∃ c, GoodCluster t c ∧ up = toUnified c := by
  rcases List.mem_map.mp h with ⟨c, hc, rfl⟩
  exact ⟨c, buildClusters_good t ms c hc, rfl⟩

/-- `getD` commutes with `map` at in-range indices. -/
theorem getD_map_of_lt {α β : Type _} (f : α → β) :
    ∀ (l : List α) (j : Nat), j < l.length → ∀ (da : α) (db : β),
      (l.map f).getD j db = f (l.getD j da) := by
  intro l
  induction l with
  | nil => intro j hj da db; exact absurd hj (by simp)
  | cons x xs ih =>
    intro j hj da db
    cases j with
    | zero => rfl
    | succ j => exact ih j (by simpa using hj) da db

/-- In-range `getD` values are members of the list. -/
theorem getD_mem_of_lt {α : Type _} :
    ∀ (l : List α) (j : Nat), j < l.length → ∀ (d : α), l.getD j d ∈ l := by
  intro l
  induction l with
  | nil => intro j hj; exact absurd hj (by simp)
  | cons x xs ih =>
    intro j hj d
    cases j with
    | zero => exact List.mem_cons_self x xs
    | succ j => exact List.mem_cons_of_mem x (ih j (by simpa using hj) d)

/-! ### The whitespace-collapsing loop -/

theorem replaceDouble_length_le : ∀ (n : Nat) (s : List Char), s.length ≤ n →
    (replaceDoubleSpace s).length ≤ s.length := by
  intro n
  induction n with
  | zero =>
    intro s hs
    rw [List.length_eq_zero.mp (Nat.le_zero.mp hs)]
    simp [replaceDoubleSpace]
  | succ n ih =>
    intro s hs
    match s with
    | [] => simp [replaceDoubleSpace]
    | [c] => simp [replaceDoubleSpace]
    | c1 :: c2 :: rest =>
      rw [replaceDoubleSpace]
      split
      · have := ih rest (by simp at hs ⊢; omega)
        simp only [List.length_cons]
        omega
      · have := ih (c2 :: rest) (by simp at hs ⊢; omega)
        simp only [List.length_cons] at this ⊢
        omega

theorem replaceDouble_length_lt : ∀ (n : Nat) (s : List Char), s.length ≤ n →
    hasDoubleSpace s = true → (replaceDoubleSpace s).length < s.length := by
  intro n
  induction n with
  | zero =>
    intro s hs hd
    rw [List.length_eq_zero.mp (Nat.le_zero.mp hs)] at hd
    simp [hasDoubleSpace] at hd
  | succ n ih =>
    intro s hs hd
    match s with
    | [] => simp [hasDoubleSpace] at hd
    | [c] => simp [hasDoubleSpace] at hd
    | c1 :: c2 :: rest =>
      rw [replaceDoubleSpace]
      rw [hasDoubleSpace] at hd
      split
      · have := replaceDouble_length_le (n + 1) rest (by simp at hs ⊢; omega)
        simp only [List.length_cons]
        omega
      · rename_i hne
        rw [if_neg hne] at hd
        have := ih (c2 :: rest) (by simp at hs ⊢; omega) hd
        simp only [List.length_cons] at this ⊢
        omega

theorem squeeze_of_no_double : ∀ (n : Nat) (s : List Char), s.length ≤ n →
    hasDoubleSpace s = false → squeezeSpaces s = s := by
  intro n
  induction n with
  | zero =>
    intro s hs _
    rw [List.length_eq_zero.mp (Nat.le_zero.mp hs)]
    rfl
  | succ n ih =>
    intro s hs hd
    match s with
    | [] => rfl
    | [c] => rfl
    | c1 :: c2 :: rest =>
      rw [hasDoubleSpace] at hd
      rw [squeezeSpaces]
      split
      · rename_i hsp
        rw [if_pos hsp] at hd
        exact absurd hd (by simp)
      · rename_i hsp
        rw [if_neg hsp] at hd
        rw [ih (c2 :: rest) (by simp at hs ⊢; omega) hd]

theorem squeeze_cons_replace : ∀ (n : Nat) (s : List Char), s.length ≤ n → ∀ c : Char,
    squeezeSpaces (c :: replaceDoubleSpace s) = squeezeSpaces (c :: s) := by
  intro n
  induction n with
  | zero =>
    intro s hs c
    rw [List.length_eq_zero.mp (Nat.le_zero.mp hs)]
    rfl
  | succ n ih =>
    intro s hs c
    match s with
    | [] => rfl
    | [d] => rfl
    | d1 :: d2 :: rest =>
      rw [replaceDoubleSpace]
      split
      · rename_i hsp
        obtain ⟨hd1, hd2⟩ := hsp
        subst hd1; subst hd2
        -- both sides start with `c :: ' ' :: _`
        by_cases hc : c = ' '
        · subst hc
          rw [show squeezeSpaces (' ' :: ' ' :: replaceDoubleSpace rest)
              = squeezeSpaces (' ' :: replaceDoubleSpace rest) from by
            rw [squeezeSpaces, if_pos ⟨rfl, rfl⟩]]
          rw [ih rest (by simp at hs ⊢; omega) ' ']
          rw [show squeezeSpaces (' ' :: ' ' :: ' ' :: rest)
              = squeezeSpaces (' ' :: ' ' :: rest) from by
            rw [squeezeSpaces, if_pos ⟨rfl, rfl⟩]]
          rw [show squeezeSpaces (' ' :: ' ' :: rest) = squeezeSpaces (' ' :: rest) from by
            rw [squeezeSpaces, if_pos ⟨rfl, rfl⟩]]
        · have hnp : ¬ (c = ' ' ∧ (' ' : Char) = ' ') := fun hh => hc hh.1
          rw [show squeezeSpaces (c :: ' ' :: replaceDoubleSpace rest)
              = c :: squeezeSpaces (' ' :: replaceDoubleSpace rest) from by
            rw [squeezeSpaces, if_neg hnp]]
          rw [ih rest (by simp at hs ⊢; omega) ' ']
          rw [show squeezeSpaces (c :: ' ' :: ' ' :: rest)
              = c :: squeezeSpaces (' ' :: ' ' :: rest) from by
            rw [squeezeSpaces, if_neg hnp]]
          rw [show squeezeSpaces (' ' :: ' ' :: rest) = squeezeSpaces (' ' :: rest) from by
            rw [squeezeSpaces, if_pos ⟨rfl, rfl⟩]]
      · rename_i hsp
        by_cases hcd : c = ' ' ∧ d1 = ' '
        · rw [show squeezeSpaces (c :: d1 :: replaceDoubleSpace (d2 :: rest))
              = squeezeSpaces (d1 :: replaceDoubleSpace (d2 :: rest)) from by
            rw [squeezeSpaces, if_pos hcd]]
          rw [ih (d2 :: rest) (by simp at hs ⊢; omega) d1]
          rw [show squeezeSpaces (c :: d1 :: d2 :: rest)
              = squeezeSpaces (d1 :: d2 :: rest) from by
            rw [squeezeSpaces, if_pos hcd]]
        · rw [show squeezeSpaces (c :: d1 :: replaceDoubleSpace (d2 :: rest))
              = c :: squeezeSpaces (d1 :: replaceDoubleSpace (d2 :: rest)) from by
            rw [squeezeSpaces, if_neg hcd]]
          rw [ih (d2 :: rest) (by simp at hs ⊢; omega) d1]
          rw [show squeezeSpaces (c :: d1 :: d2 :: rest)
              = c :: squeezeSpaces (d1 :: d2 :: rest) from by
            rw [squeezeSpaces, if_neg hcd]]

theorem squeeze_replace (s : List Char) :
    squeezeSpaces (replaceDoubleSpace s) = squeezeSpaces s := by
  match s with
  | [] => rfl
  | [c] => rfl
  | c1 :: c2 :: rest =>
    rw [replaceDoubleSpace]
    split
    · rename_i hsp
      obtain ⟨hd1, hd2⟩ := hsp
      subst hd1; subst hd2
      rw [squeeze_cons_replace rest.length rest (le_refl _) ' ']
      rw [show squeezeSpaces (' ' :: ' ' :: rest) = squeezeSpaces (' ' :: rest) from by
        rw [squeezeSpaces, if_pos ⟨rfl, rfl⟩]]
    · rename_i hsp
      rw [squeeze_cons_replace (c2 :: rest).length (c2 :: rest) (le_refl _) c1]

theorem collapseFuel_eq_squeeze : ∀ (f : Nat) (s : List Char), s.length ≤ f →
    collapseFuel f s = squeezeSpaces s := by
  intro f
  induction f with
  | zero =>
    intro s hs
    rw [List.length_eq_zero.mp (Nat.le_zero.mp hs)]
    rfl
  | succ f ih =>
    intro s hs
    rw [collapseFuel]
    split
    · rename_i hd
      rw [ih (replaceDoubleSpace s)
        (by have := replaceDouble_length_lt (f + 1) s hs hd; omega)]
      exact squeeze_replace s
    · rename_i hd
      exact (squeeze_of_no_double s.length s (le_refl _) (by simpa using hd)).symm

/-! ### Correspondence between the source loop and the spec's pseudocode -/

theorem tryPlace_none_iff (t : ℚ) (m : SiteMarket) :
    ∀ cs : List Cluster, tryPlace t m cs = none ↔
      cs.dropWhile (fun d => ! decide (t ≤ similarity m.title (centroidTitle d))) = [] := by
  intro cs
  induction cs with
  | nil => simp [tryPlace]
  | cons c cs ih =>
    by_cases hok : t ≤ similarity m.title (centroidTitle c)
    · simp [tryPlace, hok, List.dropWhile_cons]
    · simp only [tryPlace, if_neg hok, List.dropWhile_cons, decide_eq_true_eq]
      rw [if_pos (by simpa using hok)]
      cases htp : tryPlace t m cs with
      | none => simp [ih.mp htp]
      | some cs' =>
        simp only [reduceCtorEq, false_iff]
        intro hc
        rw [ih.mpr hc] at htp
        exact absurd htp (by simp)

theorem tryPlace_some_of_dropWhile (t : ℚ) (m : SiteMarket) :
    ∀ (cs : List Cluster) (c : Cluster) (rest : List Cluster),
      cs.dropWhile (fun d => ! decide (t ≤ similarity m.title (centroidTitle d))) = c :: rest →
      tryPlace t m cs =
        some (cs.takeWhile (fun d => ! decide (t ≤ similarity m.title (centroidTitle d))) ++
          (c ++ [(m, similarity m.title (centroidTitle c))]) :: rest) := by
  intro cs
  induction cs with
  | nil => intro c rest h; simp at h
  | cons d cs ih =>
    intro c rest h
    by_cases hok : t ≤ similarity m.title (centroidTitle d)
    · rw [List.dropWhile_cons, if_neg (by simp [hok])] at h
      obtain ⟨rfl, rfl⟩ := List.cons.inj h
      rw [List.takeWhile_cons, if_neg (by simp [hok])]
      simp [tryPlace, hok]
    · rw [List.dropWhile_cons, if_pos (by simpa using hok)] at h
      rw [List.takeWhile_cons, if_pos (by simpa using hok)]
      rw [show tryPlace t m (d :: cs) = match tryPlace t m cs with
        | some cs' => some (d :: cs')
        | none => none from by rw [tryPlace, if_neg hok]]
      rw [ih c rest h]
      rfl

theorem insertMarket_eq_specInsert (t : ℚ) (m : SiteMarket) (cs : List Cluster) :
    insertMarket t cs m = specInsert t cs m := by
  cases hd : cs.dropWhile (fun d => ! decide (t ≤ similarity m.title (centroidTitle d))) with
  | nil =>
    have hnone := (tryPlace_none_iff t m cs).mpr hd
    simp [insertMarket, hnone, specInsert, hd]
  | cons c rest =>
    have hsome := tryPlace_some_of_dropWhile t m cs c rest hd
    simp [insertMarket, hsome, specInsert, hd]

/-! ### Degenerate thresholds -/

theorem tryPlace_none_of_one_lt {t : ℚ} (ht : 1 < t) (m : SiteMarket) :
    ∀ cs : List Cluster, tryPlace t m cs = none := by
  intro cs
  induction cs with
  | nil => rfl
  | cons c cs ih =>
    rw [tryPlace, if_neg (not_le.mpr (lt_of_le_of_lt (similarity_le_one _ _) ht)), ih]

theorem foldl_singletons {t : ℚ} (ht : 1 < t) :
    ∀ (l : List SiteMarket) (acc : List Cluster),
      l.foldl (insertMarket t) acc = acc ++ l.map (fun m => [(m, (1 : ℚ))]) := by
  intro l
  induction l with
  | nil => intro acc; simp
  | cons m l ih =>
    intro acc
    rw [List.foldl_cons, show insertMarket t acc m = acc ++ [[(m, 1)]] from by
      simp [insertMarket, tryPlace_none_of_one_lt ht], ih, List.map_cons, List.append_assoc,
      List.singleton_append]

theorem tryPlace_first_of_nonpos {t : ℚ} (ht : t ≤ 0) (m : SiteMarket) (c : Cluster)
    (cs : List Cluster) :
    tryPlace t m (c :: cs) =
      some ((c ++ [(m, similarity m.title (centroidTitle c))]) :: cs) := by
  rw [tryPlace, if_pos (le_trans ht (similarity_nonneg _ _))]

theorem foldl_single_cluster {t : ℚ} (ht : t ≤ 0) :
    ∀ (l : List SiteMarket) (c : Cluster), ∃ ext : Cluster,
      l.foldl (insertMarket t) [c] = [c ++ ext] ∧ ext.map (fun p => p.1) = l := by
  intro l
  induction l with
  | nil => intro c; exact ⟨[], by simp, rfl⟩
  | cons m l ih =>
    intro c
    rw [List.foldl_cons, show insertMarket t [c] m
      = [c ++ [(m, similarity m.title (centroidTitle c))]] from by
        simp [insertMarket, tryPlace_first_of_nonpos ht]]
    obtain ⟨ext, heq, hmap⟩ := ih (c ++ [(m, similarity m.title (centroidTitle c))])
    exact ⟨(m, similarity m.title (centroidTitle c)) :: ext,
      by rw [heq, List.append_assoc, List.singleton_append],
      by rw [List.map_cons, hmap]⟩

/-! ### The representative-title fold -/

theorem foldl_maxByLen :
    ∀ (ts : List String) (best : String),
      (ts.foldl (fun b x => if b.length < x.length then x else b) best = best ∧
        ∀ x ∈ ts, x.length ≤ best.length) ∨
      (∃ i, i < ts.length ∧
        ts.foldl (fun b x => if b.length < x.length then x else b) best = ts.getD i "" ∧
        best.length < (ts.getD i "").length ∧
        (∀ x ∈ ts, x.length ≤ (ts.getD i "").length) ∧
        (∀ j, j < i → (ts.getD j "").length < (ts.getD i "").length)) := by
  intro ts
  induction ts with
  | nil => intro best; exact Or.inl ⟨rfl, by simp⟩
  | cons x ts ih =>
    intro best
    rw [List.foldl_cons]
    by_cases hx : best.length < x.length
    · rw [if_pos hx]
      rcases ih x with ⟨heq, hall⟩ | ⟨i, hi, heq, hgt, hall, hfirst⟩
      · refine Or.inr ⟨0, by simp, heq, hx, ?_, ?_⟩
        · intro y hy
          rcases List.mem_cons.mp hy with rfl | hmem
          · exact le_refl _
          · exact hall y hmem
        · intro j hj
          omega
      · refine Or.inr ⟨i + 1, by simpa using Nat.succ_lt_succ hi, heq,
          lt_trans hx hgt, ?_, ?_⟩
        · intro y hy
          rcases List.mem_cons.mp hy with rfl | hmem
          · exact le_of_lt hgt
          · exact hall y hmem
        · intro j hj
          cases j with
          | zero => exact hgt
          | succ j => exact hfirst j (by omega)
    · rw [if_neg hx]
      have hxle : x.length ≤ best.length := le_of_not_lt hx
      rcases ih best with ⟨heq, hall⟩ | ⟨i, hi, heq, hgt, hall, hfirst⟩
      · refine Or.inl ⟨heq, ?_⟩
        intro y hy
        rcases List.mem_cons.mp hy with rfl | hmem
        · exact hxle
        · exact hall y hmem
      · refine Or.inr ⟨i + 1, by simpa using Nat.succ_lt_succ hi, heq, hgt, ?_, ?_⟩
        · intro y hy
          rcases List.mem_cons.mp hy with rfl | hmem
          · exact le_of_lt (lt_of_le_of_lt hxle hgt)
          · exact hall y hmem
        · intro j hj
          cases j with
          | zero => exact lt_of_le_of_lt hxle hgt
          | succ j => exact hfirst j (by omega)

/-! ### Zipping parallel lists by index -/

theorem zip_eq_range_map {α β : Type _} (da : α) (db : β) :
    ∀ (l1 : List α) (l2 : List β), l2.length = l1.length →
      l1.zip l2 = (List.range l1.length).map (fun j => (l1.getD j da, l2.getD j db)) := by
  intro l1
  induction l1 with
  | nil => intro l2 h; simp
  | cons x xs ih =>
    intro l2 h
    cases l2 with
    | nil => simp at h
    | cons y ys =>
      have h' : ys.length = xs.length := by simpa using h
      rw [List.zip_cons_cons, List.length_cons, List.range_succ_eq_map, List.map_cons,
        ih ys h', List.map_map]
      rfl

/-! ## Claims -/

/-- C1: `cluster_markets` implements the spec's greedy single-pass
first-fit algorithm: the records are folded in arrival order, each is
compared against the clusters in creation order (centroid = first member's
title), joins the first cluster scoring at least the threshold, a new
singleton cluster with score 1.0 is appended when none qualifies, and the
empty input yields the empty output. -/
theorem C1_cluster_markets_refines_spec :
    (∀ (ms : List SiteMarket) (t : ℚ), cluster_markets ms t = specCluster ms t) ∧
    (∀ t : ℚ, cluster_markets [] t = []) := by
  constructor
  · intro ms t
    unfold cluster_markets specCluster buildClusters
    have hfun : insertMarket t = specInsert t :=
      funext fun cs => funext fun m => insertMarket_eq_specInsert t m cs
    rw [hfun]
  · intro t
    rfl

/-- C5: with a threshold above 1.0 no record can join any cluster, so every
record becomes its own singleton product with confidence score 1.0, in
arrival order. -/
theorem C5_singleton_fallback (ms : List SiteMarket) (t : ℚ) (h1 : ms ≠ [])
    (h2 : 1 < t) :
    cluster_markets ms t = ms.map (fun m => ⟨m.title, [m], [1]⟩) := by
  unfold cluster_markets buildClusters
  rw [foldl_singletons h2 ms [], List.nil_append, List.map_map]
  rfl

/-- C5 (witness): one record with threshold 2 yields one singleton product. -/
theorem C5_witness :
    ([rA1] ≠ ([] : List SiteMarket)) ∧ (1 : ℚ) < 2 ∧
      cluster_markets [rA1] 2 = [⟨"a b", [rA1], [1]⟩] :=
  ⟨by decide, by norm_num, C5_singleton_fallback [rA1] 2 (by decide) (by norm_num)⟩

/-- C6: with a threshold at most 0.0 every record joins the first cluster,
so a non-empty input yields exactly one product holding all records in
arrival order. -/
theorem C6_total_merge (ms : List SiteMarket) (t : ℚ) (h1 : ms ≠ []) (h2 : t ≤ 0) :
    (cluster_markets ms t).map UnifiedProduct.members = [ms] := by
  cases ms with
  | nil => exact absurd rfl h1
  | cons m l =>
    unfold cluster_markets buildClusters
    rw [List.foldl_cons, show insertMarket t [] m = [[(m, 1)]] from rfl]
    obtain ⟨ext, heq, hmap⟩ := foldl_single_cluster h2 l [(m, 1)]
    rw [heq]
    simp [toUnified, hmap]

/-- C6 (witness): two token-disjoint records with threshold 0 end up in a
single product containing both, in order. -/
theorem C6_witness :
    ([rXY, rZW] ≠ ([] : List SiteMarket)) ∧ ((0 : ℚ) ≤ 0) ∧
      (cluster_markets [rXY, rZW] 0).map UnifiedProduct.members = [[rXY, rZW]] :=
  ⟨by decide, le_refl 0, C6_total_merge [rXY, rZW] 0 (by decide) (le_refl 0)⟩

/-- C4 (counterexample): `similarity` is not reflexive at 1.0 on every
non-empty string.  `"?"` is non-empty, but normalization turns it into a
tokenless string, which the scorer rates 0 against anything — including
itself (spec §7: empty titles degrade to zero similarity). -/
theorem C4_counterexample :
    ("?" : String) ≠ "" ∧ similarity "?" "?" = 0 ∧ ¬ similarity "?" "?" = 1 := by
  decide

/-- C4 (amended): `similarity` always lies in `[0,1]` and is symmetric; it
is reflexive at 1.0 for every string whose normalization still contains at
least one token (rather than for every non-empty string). -/
theorem C4_similarity_contract :
    (∀ a b : String, 0 ≤ similarity a b ∧ similarity a b ≤ 1) ∧
    (∀ a b : String, similarity a b = similarity b a) ∧
    (∀ a : String, tokenSet (normalize_title a).data ≠ [] → similarity a a = 1) :=
  ⟨fun a b => ⟨similarity_nonneg a b, similarity_le_one a b⟩,
   fun a b => similarity_comm a b,
   fun _ h => similarity_self h⟩

/-- C4 (witness): the reflexivity clause applied to the concrete string
`"a"`, whose normalization has one token. -/
theorem C4_witness :
    tokenSet (normalize_title "a").data ≠ [] ∧ similarity "a" "a" = 1 :=
  ⟨by decide, C4_similarity_contract.2.2 "a" (by decide)⟩

/-- C2 (counterexample): with threshold `3/2` the single record `rA1` forms
a cluster whose first member has similarity only 1 < 3/2 to the centroid
(its own title), so not every record of every cluster clears the
threshold. -/
theorem C2_counterexample :
    ∃ up ∈ cluster_markets [rA1] (3/2), ∃ m ∈ up.members,
      similarity m.title ((up.members.getD 0 dummyMarket).title) < 3/2 := by
  decide

/-- C2 (amended): every non-first member of every produced cluster has
similarity at least the threshold to the centroid (the first member's
title).  The first member's similarity to the centroid is its
self-similarity, which is 1.0 for token-bearing titles and 0.0 for
tokenless ones, so it can fall below thresholds above 1.0 (or above 0.0
for tokenless titles); the unconditional first-member clause of the claim
fails. -/
theorem C2_members_meet_threshold (ms : List SiteMarket) (t : ℚ) (up : UnifiedProduct)
    (h : up ∈ cluster_markets ms t) :
    ∀ i, 0 < i → i < up.members.length →
      t ≤ similarity ((up.members.getD i dummyMarket).title)
          ((up.members.getD 0 dummyMarket).title) := by
  obtain ⟨c, hgood, rfl⟩ := mem_cluster_markets h
  obtain ⟨m0, rest, rfl, hrest⟩ := hgood
  intro i hi hlen
  cases i with
  | zero => omega
  | succ j =>
    have hlen' : j < rest.length := by
      simpa [toUnified] using hlen
    have h1 : ((toUnified ((m0, (1 : ℚ)) :: rest)).members.getD (j + 1) dummyMarket)
        = (rest.getD j (dummyMarket, 1)).1 :=
      getD_map_of_lt _ rest j hlen' (dummyMarket, 1) dummyMarket
    have h0 : ((toUnified ((m0, (1 : ℚ)) :: rest)).members.getD 0 dummyMarket) = m0 := rfl
    rw [h1, h0]
    have hp := hrest (rest.getD j (dummyMarket, 1)) (getD_mem_of_lt rest j hlen' _)
    rw [← hp.1]
    exact hp.2

/-- C2 (witness): the amended theorem applied to two records with the same
title `"a b"` and threshold `1/2`: the second member of the single produced
cluster has similarity at least `1/2` to the centroid. -/
theorem C2_witness :
    (1 : ℚ)/2 ≤ similarity rA2.title rA1.title :=
  C2_members_meet_threshold [rA1, rA2] (1/2) ⟨"a b", [rA1, rA2], [1, 1]⟩
    (by decide) 1 (by decide) (by decide)

/-- C3: in every produced `UnifiedProduct` the confidence scores all lie in
`[0,1]`, the first score is exactly 1.0, the score list is parallel to the
member list, and every non-first member's stored score equals its
similarity to the first member's title. -/
theorem C3_confidence_scores (ms : List SiteMarket) (t : ℚ) (up : UnifiedProduct)
    (h : up ∈ cluster_markets ms t) :
    (∀ s ∈ up.confidence_scores, 0 ≤ s ∧ s ≤ 1) ∧
    up.confidence_scores.head? = some 1 ∧
    up.members.length = up.confidence_scores.length ∧
    (∀ i, 0 < i → i < up.members.length →
      up.confidence_scores.getD i 0 =
        similarity ((up.members.getD i dummyMarket).title)
          ((up.members.getD 0 dummyMarket).title)) := by
  obtain ⟨c, hgood, rfl⟩ := mem_cluster_markets h
  obtain ⟨m0, rest, rfl, hrest⟩ := hgood
  refine ⟨?_, rfl, by simp [toUnified], ?_⟩
  · intro s hs
    have hs' : s = 1 ∨ s ∈ rest.map (fun p => p.2) := by
      simpa [toUnified] using hs
    rcases hs' with rfl | hmem
    · norm_num
    · rcases List.mem_map.mp hmem with ⟨p, hp, rfl⟩
      rw [(hrest p hp).1]
      exact ⟨similarity_nonneg _ _, similarity_le_one _ _⟩
  · intro i hi hlen
    cases i with
    | zero => omega
    | succ j =>
      have hlen' : j < rest.length := by
        simpa [toUnified] using hlen
      have h0 : ((toUnified ((m0, (1 : ℚ)) :: rest)).members.getD 0 dummyMarket) = m0 := rfl
      have h1 : ((toUnified ((m0, (1 : ℚ)) :: rest)).members.getD (j + 1) dummyMarket)
          = (rest.getD j (dummyMarket, 1)).1 :=
        getD_map_of_lt _ rest j hlen' (dummyMarket, 1) dummyMarket
      have h2 : ((toUnified ((m0, (1 : ℚ)) :: rest)).confidence_scores.getD (j + 1) 0)
          = (rest.getD j (dummyMarket, 1)).2 :=
        getD_map_of_lt _ rest j hlen' (dummyMarket, 1) 0
      rw [h0, h1, h2]
      exact (hrest _ (getD_mem_of_lt rest j hlen' _)).1

/-- C3 (witness): the theorem applied to the one-record input `[rA1]` with
threshold `1/2`, whose output is the singleton product with score list
`[1]`. -/
theorem C3_witness :
    (∀ s ∈ (⟨"a b", [rA1], [1]⟩ : UnifiedProduct).confidence_scores, 0 ≤ s ∧ s ≤ 1) ∧
    (⟨"a b", [rA1], [1]⟩ : UnifiedProduct).confidence_scores.head? = some 1 ∧
    (⟨"a b", [rA1], [1]⟩ : UnifiedProduct).members.length
      = (⟨"a b", [rA1], [1]⟩ : UnifiedProduct).confidence_scores.length ∧
    (∀ i, 0 < i → i < (⟨"a b", [rA1], [1]⟩ : UnifiedProduct).members.length →
      (⟨"a b", [rA1], [1]⟩ : UnifiedProduct).confidence_scores.getD i 0 =
        similarity (((⟨"a b", [rA1], [1]⟩ : UnifiedProduct).members.getD i dummyMarket).title)
          (((⟨"a b", [rA1], [1]⟩ : UnifiedProduct).members.getD 0 dummyMarket).title)) :=
  C3_confidence_scores [rA1] (1/2) ⟨"a b", [rA1], [1]⟩ (by decide)

/-- C7: the unified title of every produced product is a member's raw
title, no member's raw title is longer, and it is the first member title of
maximal length (stable-max tie-break in member order). -/
theorem C7_unified_title (ms : List SiteMarket) (t : ℚ) (up : UnifiedProduct)
    (h : up ∈ cluster_markets ms t) :
    (∀ m ∈ up.members, m.title.length ≤ up.unified_title.length) ∧
    up.unified_title ∈ memberTitles up ∧
    (∃ i, i < (memberTitles up).length ∧
      up.unified_title = (memberTitles up).getD i "" ∧
      ∀ j, j < i → ((memberTitles up).getD j "").length < up.unified_title.length) := by
  obtain ⟨c, hgood, rfl⟩ := mem_cluster_markets h
  obtain ⟨m0, rest, rfl, -⟩ := hgood
  have hT : memberTitles (toUnified ((m0, (1 : ℚ)) :: rest))
      = m0.title :: rest.map (fun p => p.1.title) := by
    unfold memberTitles toUnified
    rw [List.map_map]
    rfl
  have hmax : (toUnified ((m0, (1 : ℚ)) :: rest)).unified_title
      = (rest.map (fun p => p.1.title)).foldl
          (fun b x => if b.length < x.length then x else b) m0.title := rfl
  have hmem : ∀ m ∈ (toUnified ((m0, (1 : ℚ)) :: rest)).members,
      m = m0 ∨ m.title ∈ rest.map (fun p => p.1.title) := by
    intro m hm
    rcases List.mem_map.mp hm with ⟨p, hp, rfl⟩
    rcases List.mem_cons.mp hp with rfl | hp'
    · exact Or.inl rfl
    · exact Or.inr (List.mem_map.mpr ⟨p, hp', rfl⟩)
  rcases foldl_maxByLen (rest.map (fun p => p.1.title)) m0.title with
    ⟨heq, hall⟩ | ⟨i, hi, heq, hgt, hall, hfirst⟩
  · rw [hmax, heq] at *
    refine ⟨?_, ?_, 0, ?_, ?_, ?_⟩
    · intro m hm
      rcases hmem m hm with rfl | hmem'
      · exact le_refl _
      · exact hall _ hmem'
    · rw [hT]; exact List.mem_cons_self _ _
    · rw [hT]; simp
    · rw [hT]; rfl
    · intro j hj; omega
  · rw [hmax, heq] at *
    refine ⟨?_, ?_, i + 1, ?_, ?_, ?_⟩
    · intro m hm
      rcases hmem m hm with rfl | hmem'
      · exact le_of_lt hgt
      · exact hall _ hmem'
    · rw [hT]
      exact List.mem_cons_of_mem _ (getD_mem_of_lt _ i hi _)
    · rw [hT]; simpa using Nat.succ_lt_succ hi
    · rw [hT]; rfl
    · intro j hj
      rw [hT]
      cases j with
      | zero => exact hgt
      | succ j => exact hfirst j (by omega)

/-- C7 (witness): two records with shared tokens and threshold 0 form one
product whose unified title `"x y z w"` is the longer of the two raw
titles. -/
theorem C7_witness :
    (∀ m ∈ (⟨"x y z w", [rXY, rXYZW], [1, 1]⟩ : UnifiedProduct).members,
      m.title.length ≤ (⟨"x y z w", [rXY, rXYZW], [1, 1]⟩ : UnifiedProduct).unified_title.length) ∧
    (⟨"x y z w", [rXY, rXYZW], [1, 1]⟩ : UnifiedProduct).unified_title
      ∈ memberTitles ⟨"x y z w", [rXY, rXYZW], [1, 1]⟩ ∧
    (∃ i, i < (memberTitles ⟨"x y z w", [rXY, rXYZW], [1, 1]⟩).length ∧
      (⟨"x y z w", [rXY, rXYZW], [1, 1]⟩ : UnifiedProduct).unified_title
        = (memberTitles ⟨"x y z w", [rXY, rXYZW], [1, 1]⟩).getD i "" ∧
      ∀ j, j < i → ((memberTitles ⟨"x y z w", [rXY, rXYZW], [1, 1]⟩).getD j "").length
        < (⟨"x y z w", [rXY, rXYZW], [1, 1]⟩ : UnifiedProduct).unified_title.length) :=
  C7_unified_title [rXY, rXYZW] 0 ⟨"x y z w", [rXY, rXYZW], [1, 1]⟩ (by decide)

/-- C8: `normalize_title` equals the spec's reference pipeline — lower-case,
strip, replace the ten punctuation characters by single spaces, then
collapse every run of two or more spaces to one space; the empty string
maps to the empty string. -/
theorem C8_normalize_title_eq_spec :
    (∀ s : String, normalize_title s = specNormalize s) ∧ normalize_title "" = "" := by
  constructor
  · intro s
    unfold normalize_title specNormalize collapseSpaces
    rw [collapseFuel_eq_squeeze _ _ (le_refl _)]
  · rfl

/-- C9 (counterexample): a `UnifiedProduct` whose score list is shorter
than its member list (the pydantic model does not enforce parallelism)
loses rows to the `zip` truncation in `export_csv`: one member but zero
data rows. -/
theorem C9_counterexample :
    (exportRows [⟨"t", [rA1], []⟩]).length ≠
      (([⟨"t", [rA1], []⟩] : List UnifiedProduct).map (fun up => up.members.length)).sum := by
  decide

/-- C9 (amended): for products satisfying the data-model invariant that
`confidence_scores` is parallel to `members` (§3), the serializer emits
exactly one row per (product, member) pair — product order then member
order, with the stated price and confidence formatting — so the row count
is the sum of the member counts. -/
theorem C9_rows (ups : List UnifiedProduct)
    (h : ∀ up ∈ ups, up.confidence_scores.length = up.members.length) :
    (exportRows ups).length = (ups.map (fun up => up.members.length)).sum ∧
    exportRows ups = ups.flatMap (fun up => (List.range up.members.length).map
      (fun j => csvRow up.unified_title (up.members.getD j dummyMarket)
        (up.confidence_scores.getD j 0))) := by
  induction ups with
  | nil => exact ⟨rfl, rfl⟩
  | cons up ups ih =>
    have hup := h up (List.mem_cons_self _ _)
    obtain ⟨ihlen, iheq⟩ := ih (fun u hu => h u (List.mem_cons_of_mem _ hu))
    have hcons : exportRows (up :: ups) =
        ((up.members.zip up.confidence_scores).map
          (fun p => csvRow up.unified_title p.1 p.2)) ++ exportRows ups := rfl
    have hcons' : (up :: ups).flatMap (fun u => (List.range u.members.length).map
        (fun j => csvRow u.unified_title (u.members.getD j dummyMarket)
          (u.confidence_scores.getD j 0)))
        = ((List.range up.members.length).map
            (fun j => csvRow up.unified_title (up.members.getD j dummyMarket)
              (up.confidence_scores.getD j 0)))
          ++ ups.flatMap (fun u => (List.range u.members.length).map
            (fun j => csvRow u.unified_title (u.members.getD j dummyMarket)
              (u.confidence_scores.getD j 0))) := rfl
    constructor
    · rw [hcons, List.length_append, List.length_map, List.length_zip, hup, Nat.min_self,
        List.map_cons, List.sum_cons, ihlen]
    · rw [hcons, hcons', iheq]
      congr 1
      rw [zip_eq_range_map dummyMarket 0 up.members up.confidence_scores hup, List.map_map]
      rfl

/-- C9 (witness): one product with one member and one score produces one
data row. -/
theorem C9_witness :
    (exportRows [⟨"t", [rA1], [1]⟩]).length
        = (([⟨"t", [rA1], [1]⟩] : List UnifiedProduct).map (fun up => up.members.length)).sum ∧
    exportRows [⟨"t", [rA1], [1]⟩] = ([⟨"t", [rA1], [1]⟩] : List UnifiedProduct).flatMap
      (fun up => (List.range up.members.length).map
        (fun j => csvRow up.unified_title (up.members.getD j dummyMarket)
          (up.confidence_scores.getD j 0))) :=
  C9_rows [⟨"t", [rA1], [1]⟩] (by decide)

/-- C10: clustering is order sensitive — permuting the records `"x y"`,
`"x y z w"`, `"z w"` changes the outcome at threshold `1/2`:
with `"x y"` first, `"z w"` cannot join (similarity 0 to the centroid) and
two products result; with `"x y z w"` first, both others join it and a
single product results. -/
theorem C10_order_sensitivity :
    List.Perm [rXYZW, rXY, rZW] [rXY, rXYZW, rZW] ∧
    cluster_markets [rXY, rXYZW, rZW] (1/2) ≠ cluster_markets [rXYZW, rXY, rZW] (1/2) :=
  ⟨by decide, by decide⟩

end Tzuroni
